import Mathlib

/-!
Formal model of the string-normalization, fuzzy-comparison and
request-caching core of the ebook-ident repository (src/compare.py and
src/db_cache.py), together with proofs of the specified properties.

Strings are modelled as Lean strings; the regular-expression based
transformations of the Python source are embedded as recursive functions
over the underlying character lists.  Python's str.lower is modelled on
the ASCII fragment, which is the fragment the specification exercises.
-/

namespace EbookIdent

/-- Characters removed by PUNC_PATTERN, the character class [,.#:]. -/
def isPunc (c : Char) : Bool := c == ',' || c == '.' || c == '#' || c == ':'

/-- PUNC_PATTERN.sub('', s): delete every comma, period, hash and colon. -/
def punc_sub : List Char → List Char
  | [] => []
  | c :: cs => if isPunc c then punc_sub cs else c :: punc_sub cs

/-- AMP_PATTERN.sub('and', s): replace each ampersand by "and". -/
def amp_sub : List Char → List Char
  | [] => []
  | c :: cs => if c == '&' then 'a' :: 'n' :: 'd' :: amp_sub cs else c :: amp_sub cs

/-- ASCII model of Python str.lower on one character: map A-Z to a-z. -/
def lower_char (c : Char) : Char :=
  if 65 ≤ c.toNat ∧ c.toNat ≤ 90 then Char.ofNat (c.toNat + 32) else c

/-- str.lower over a character list. -/
def lower_list (cs : List Char) : List Char := cs.map lower_char

/-- compare.normalize: strip the punctuation class, expand ampersands to
"and", then lowercase (the order of the Python expression
AMP_PATTERN.sub('and', PUNC_PATTERN.sub('', input)).lower()). -/
def normalize (input : String) : String :=
  String.mk (lower_list (amp_sub (punc_sub input.data)))

/-- The specification's reading of normalize: remove every character in
the set \x7b,.#:\x7d, replace every ampersand by "and", and lowercase the
result, with no whitespace collapsing. -/
def normalize_spec (input : String) : String :=
  String.mk ((((input.data.filter (fun c => !isPunc c)).flatMap
    (fun c => if c == '&' then ['a', 'n', 'd'] else [c]))).map lower_char)

-- Character-level facts about the ASCII lower-casing model.

theorem toNat_ofNat_lower (m : ℕ) (h1 : 97 ≤ m) (h2 : m ≤ 122) :
    (Char.ofNat m).toNat = m := by
  interval_cases m <;> rfl

theorem lower_char_toNat (c : Char) (h1 : 65 ≤ c.toNat) (h2 : c.toNat ≤ 90) :
    (lower_char c).toNat = c.toNat + 32 := by
  unfold lower_char
  rw [if_pos ⟨h1, h2⟩]
  exact toNat_ofNat_lower _ (by omega) (by omega)

theorem lower_char_cases (c : Char) :
    lower_char c = c ∨ (97 ≤ (lower_char c).toNat ∧ (lower_char c).toNat ≤ 122) := by
  by_cases h : 65 ≤ c.toNat ∧ c.toNat ≤ 90
  · right
    rw [lower_char_toNat c h.1 h.2]
    omega
  · left
    unfold lower_char
    rw [if_neg h]

theorem ne_of_toNat_ne {c d : Char} (h : c.toNat ≠ d.toNat) : c ≠ d :=
  fun hc => h (hc ▸ rfl)

theorem lower_char_of_not {c : Char} (h : ¬(65 ≤ c.toNat ∧ c.toNat ≤ 90)) :
    lower_char c = c := by
  unfold lower_char
  rw [if_neg h]

theorem lower_char_idem (c : Char) : lower_char (lower_char c) = lower_char c := by
  rcases lower_char_cases c with h | h
  · rw [h]; exact h
  · exact lower_char_of_not (by omega)

theorem lower_char_ne_of_lt {c : Char} (d : Char) (hd : d.toNat < 97)
    (hc : 97 ≤ (lower_char c).toNat) : lower_char c ≠ d :=
  ne_of_toNat_ne (by omega)

theorem isPunc_lower {c : Char} (h : isPunc c = false) :
    isPunc (lower_char c) = false := by
  rcases lower_char_cases c with hc | hc
  · rw [hc]; exact h
  · have h1 := lower_char_ne_of_lt (c := c) ',' (by decide) hc.1
    have h2 := lower_char_ne_of_lt (c := c) '.' (by decide) hc.1
    have h3 := lower_char_ne_of_lt (c := c) '#' (by decide) hc.1
    have h4 := lower_char_ne_of_lt (c := c) ':' (by decide) hc.1
    simp [isPunc, h1, h2, h3, h4]

theorem lower_char_ne_amp {c : Char} (h : c ≠ '&') : lower_char c ≠ '&' := by
  rcases lower_char_cases c with hc | hc
  · rw [hc]; exact h
  · exact lower_char_ne_of_lt '&' (by decide) hc.1

-- List-level facts about the two substitutions.

theorem mem_punc_sub {c : Char} : ∀ {l : List Char}, c ∈ punc_sub l → isPunc c = false
  | [], h => by simp [punc_sub] at h
  | d :: ds, h => by
    by_cases hd : isPunc d
    · rw [punc_sub, if_pos hd] at h
      exact mem_punc_sub h
    · rw [punc_sub, if_neg hd] at h
      rcases List.mem_cons.mp h with h | h
      · subst h; exact Bool.eq_false_iff.mpr hd
      · exact mem_punc_sub h

theorem mem_amp_sub {c : Char} : ∀ {l : List Char}, c ∈ amp_sub l → c ≠ '&'
  | [], h => by simp [amp_sub] at h
  | d :: ds, h => by
    by_cases hd : d == '&'
    · rw [amp_sub, if_pos hd] at h
      rcases List.mem_cons.mp h with h | h
      · subst h; decide
      rcases List.mem_cons.mp h with h | h
      · subst h; decide
      rcases List.mem_cons.mp h with h | h
      · subst h; decide
      · exact mem_amp_sub h
    · rw [amp_sub, if_neg hd] at h
      rcases List.mem_cons.mp h with h | h
      · subst h; exact fun hc => hd (by simp [hc])
      · exact mem_amp_sub h

theorem punc_sub_id : ∀ {l : List Char}, (∀ c ∈ l, isPunc c = false) → punc_sub l = l
  | [], _ => rfl
  | c :: cs, h => by
    rw [punc_sub, if_neg (by simp [h c (List.mem_cons_self c cs)]),
      punc_sub_id (fun d hd => h d (List.mem_cons_of_mem c hd))]

theorem amp_sub_id : ∀ {l : List Char}, (∀ c ∈ l, c ≠ '&') → amp_sub l = l
  | [], _ => rfl
  | c :: cs, h => by
    rw [amp_sub, if_neg (by simp [h c (List.mem_cons_self c cs)]),
      amp_sub_id (fun d hd => h d (List.mem_cons_of_mem c hd))]

theorem lower_list_id {l : List Char} (h : ∀ c ∈ l, lower_char c = c) :
    lower_list l = l := by
  simp only [lower_list]
  exact List.map_congr_left h |>.trans (List.map_id l)

theorem mem_amp_sub_punc {c : Char} :
    ∀ {l : List Char}, (∀ x ∈ l, isPunc x = false) → c ∈ amp_sub l → isPunc c = false
  | [], _, h => by simp [amp_sub] at h
  | d :: ds, hl, h => by
    have htail : ∀ x ∈ ds, isPunc x = false :=
      fun x hx => hl x (List.mem_cons_of_mem d hx)
    by_cases hd : d == '&'
    · rw [amp_sub, if_pos hd] at h
      rcases List.mem_cons.mp h with h | h
      · subst h; decide
      rcases List.mem_cons.mp h with h | h
      · subst h; decide
      rcases List.mem_cons.mp h with h | h
      · subst h; decide
      · exact mem_amp_sub_punc htail h
    · rw [amp_sub, if_neg hd] at h
      rcases List.mem_cons.mp h with h | h
      · subst h; exact hl c (List.mem_cons_self c ds)
      · exact mem_amp_sub_punc htail h

/-- Every character of a normalized string is punctuation-free,
ampersand-free and already lowercase. -/
theorem normalize_stable {s : String} {c : Char} (h : c ∈ (normalize s).data) :
    isPunc c = false ∧ c ≠ '&' ∧ lower_char c = c := by
  simp only [normalize, lower_list] at h
  rcases List.mem_map.mp h with ⟨d, hd, hdc⟩
  subst hdc
  exact ⟨isPunc_lower (mem_amp_sub_punc (fun x hx => mem_punc_sub hx) hd),
    lower_char_ne_amp (mem_amp_sub hd), lower_char_idem d⟩

theorem punc_sub_eq_filter : ∀ l : List Char, punc_sub l = l.filter (fun c => !isPunc c)
  | [] => rfl
  | c :: cs => by
    rw [punc_sub, List.filter_cons]
    by_cases h : isPunc c
    · simp [h, punc_sub_eq_filter cs]
    · simp [h, punc_sub_eq_filter cs]

theorem amp_sub_eq_flatMap : ∀ l : List Char,
    amp_sub l = l.flatMap (fun c => if c == '&' then ['a', 'n', 'd'] else [c])
  | [] => rfl
  | c :: cs => by
    rw [amp_sub, List.flatMap_cons]
    by_cases h : c == '&'
    · simp only [if_pos h, amp_sub_eq_flatMap cs]; rfl
    · simp only [if_neg h, amp_sub_eq_flatMap cs]; rfl

/-- C7: for every input string, normalize removes every character in the
class \x7b,.#:\x7d, replaces every ampersand by "and", and lowercases the
result without collapsing whitespace; in particular
normalize "A & B, Inc." = "a and b inc", and interior whitespace runs are
kept as they are. -/
theorem normalize_characterization :
    (∀ s : String, normalize s = normalize_spec s) ∧
    normalize "A & B, Inc." = "a and b inc" ∧
    normalize "A  B" = "a  b" := by
  refine ⟨fun s => ?_, by decide, by decide⟩
  simp only [normalize, normalize_spec, lower_list, punc_sub_eq_filter, amp_sub_eq_flatMap]

/-- C8: normalize is idempotent — normalizing twice yields the same
string as normalizing once. -/
theorem normalize_idempotent (s : String) : normalize (normalize s) = normalize s := by
  show String.mk (lower_list (amp_sub (punc_sub (normalize s).data))) = normalize s
  rw [punc_sub_id (fun c hc => (normalize_stable hc).1),
    amp_sub_id (fun c hc => (normalize_stable hc).2.1),
    lower_list_id (fun c hc => (normalize_stable hc).2.2)]

/-- The whitespace class of WS_PATTERN, modelled on its ASCII part
(space, tab, newline, carriage return, vertical tab, form feed). -/
def isWS (c : Char) : Bool :=
  c == ' ' || c == '\t' || c == '\n' || c == '\r' || c == '\x0b' || c == '\x0c'

/-- Scanner for re.split of one-or-more whitespace characters.  The
state is some token-so-far while accumulating a field, and none while
inside a whitespace run (the run's field was already emitted when the
run began).  Mirrors how re.split produces empty fields at the string's
edges. -/
def tokenize_go : List Char → Option (List Char) → List String
  | [], some a => [String.mk a.reverse]
  | [], none => [""]
  | c :: cs, some a =>
    if isWS c then String.mk a.reverse :: tokenize_go cs none
    else tokenize_go cs (some (c :: a))
  | c :: cs, none =>
    if isWS c then tokenize_go cs none else tokenize_go cs (some [c])

/-- compare.tokenize: WS_PATTERN.split(input). -/
def tokenize (input : String) : List String := tokenize_go input.data (some [])

theorem tokenize_go_ne_nil : ∀ (l : List Char) (acc : Option (List Char)),
    tokenize_go l acc ≠ []
  | [], some _ => by simp [tokenize_go]
  | [], none => by simp [tokenize_go]
  | c :: cs, some a => by
    by_cases h : isWS c
    · simp [tokenize_go, h]
    · simpa [tokenize_go, h] using tokenize_go_ne_nil cs (some (c :: a))
  | c :: cs, none => by
    by_cases h : isWS c
    · simpa [tokenize_go, h] using tokenize_go_ne_nil cs none
    · simpa [tokenize_go, h] using tokenize_go_ne_nil cs (some [c])

theorem getLast?_cons_of_ne_nil {α : Type} {x : α} {l : List α} (h : l ≠ []) :
    (x :: l).getLast? = l.getLast? := by
  cases l with
  | nil => exact absurd rfl h
  | cons b bs => exact List.getLast?_cons_cons

theorem tokenize_go_getLast (l : List Char) : ∀ (acc : Option (List Char)) (c : Char),
    l.getLast? = some c → isWS c = true → (tokenize_go l acc).getLast? = some "" := by
  induction l with
  | nil => intro acc c h _; simp at h
  | cons d ds ih =>
    intro acc c h hws
    cases hds : ds with
    | nil =>
      subst hds
      simp only [List.getLast?_singleton, Option.some.injEq] at h
      subst h
      cases acc with
      | some a => simp [tokenize_go, hws]
      | none => simp [tokenize_go, hws]
    | cons e es =>
      subst hds
      rw [List.getLast?_cons_cons] at h
      have hne : (e :: es) ≠ ([] : List Char) := by simp
      cases acc with
      | some a =>
        by_cases hd : isWS d
        · rw [show tokenize_go (d :: e :: es) (some a)
              = String.mk a.reverse :: tokenize_go (e :: es) none by
            simp [tokenize_go, hd]]
          rw [getLast?_cons_of_ne_nil (tokenize_go_ne_nil _ _)]
          exact ih none c h hws
        · rw [show tokenize_go (d :: e :: es) (some a)
              = tokenize_go (e :: es) (some (d :: a)) by simp [tokenize_go, hd]]
          exact ih _ c h hws
      | none =>
        by_cases hd : isWS d
        · rw [show tokenize_go (d :: e :: es) none = tokenize_go (e :: es) none by
            simp [tokenize_go, hd]]
          exact ih none c h hws
        · rw [show tokenize_go (d :: e :: es) none = tokenize_go (e :: es) (some [d]) by
            simp [tokenize_go, hd]]
          exact ih _ c h hws

theorem length_filter_lt_of_mem_empty : ∀ {L : List String}, "" ∈ L →
    (L.filter (fun t => !(t == ""))).length < L.length
  | x :: xs, h => by
    rcases List.mem_cons.mp h with h | h
    · rw [List.filter_cons, if_neg (by simp [h.symm])]
      exact Nat.lt_succ_of_le (List.length_filter_le _ xs)
    · rw [List.filter_cons]
      by_cases hx : (!(x == "")) = true
      · rw [if_pos hx]
        exact Nat.succ_lt_succ (length_filter_lt_of_mem_empty h)
      · rw [if_neg hx]
        exact Nat.lt_succ_of_lt (length_filter_lt_of_mem_empty h)

/-- C10: tokenize returns empty-string tokens at the boundaries:
tokenize "" = [""]; an input starting (ending) with a whitespace
character yields an empty first (last) token; hence whenever an empty
token is present the token count used by the comparator's
token-difference guard exceeds the number of visible (nonempty) words. -/
theorem tokenize_boundary_empty_tokens :
    tokenize "" = [""] ∧
    (∀ (s : String) (c : Char), s.data.head? = some c → isWS c = true →
      (tokenize s).head? = some "") ∧
    (∀ (s : String) (c : Char), s.data.getLast? = some c → isWS c = true →
      (tokenize s).getLast? = some "") ∧
    (∀ s : String, "" ∈ tokenize s →
      ((tokenize s).filter (fun t => !(t == ""))).length < (tokenize s).length) := by
  refine ⟨rfl, ?_, ?_, ?_⟩
  · intro s c h hws
    unfold tokenize
    cases hd : s.data with
    | nil => rw [hd] at h; simp at h
    | cons d ds =>
      rw [hd] at h
      simp only [List.head?_cons, Option.some.injEq] at h
      subst h
      simp [tokenize_go, hws]
  · intro s c h hws
    exact tokenize_go_getLast s.data _ c h hws
  · intro s h
    exact length_filter_lt_of_mem_empty h

/-- Closed instance of the boundary-token properties at the
whitespace-padded input " a ". -/
theorem tokenize_boundary_empty_tokens_witness :
    (tokenize " a ").head? = some "" ∧ (tokenize " a ").getLast? = some "" ∧
    ((tokenize " a ").filter (fun t => !(t == ""))).length < (tokenize " a ").length :=
  ⟨tokenize_boundary_empty_tokens.2.1 " a " ' ' (by decide) (by decide),
   tokenize_boundary_empty_tokens.2.2.1 " a " ' ' (by decide) (by decide),
   tokenize_boundary_empty_tokens.2.2.2 " a " (by decide)⟩

-- Lexicographic code-point order on strings, the order Python's sorted
-- uses on str keys.

theorem char_eq_of_toNat_eq {c d : Char} (h : c.toNat = d.toNat) : c = d :=
  Char.ext (UInt32.ext h)

/-- Code-point lexicographic strict order on character lists. -/
def str_lt_list : List Char → List Char → Bool
  | [], [] => false
  | [], _ :: _ => true
  | _ :: _, [] => false
  | c :: cs, d :: ds =>
    if c.toNat < d.toNat then true
    else if d.toNat < c.toNat then false
    else str_lt_list cs ds

/-- Non-strict key order used to model Python's sorted on parameter
names. -/
def key_le (a b : String) : Prop := str_lt_list b.data a.data = false

instance : DecidableRel key_le := fun a b =>
  inferInstanceAs (Decidable (str_lt_list b.data a.data = false))

theorem str_lt_trichotomy : ∀ l₁ l₂ : List Char,
    str_lt_list l₁ l₂ = true ∨ l₁ = l₂ ∨ str_lt_list l₂ l₁ = true
  | [], [] => Or.inr (Or.inl rfl)
  | [], _ :: _ => Or.inl rfl
  | _ :: _, [] => Or.inr (Or.inr rfl)
  | c :: cs, d :: ds => by
    rcases Nat.lt_trichotomy c.toNat d.toNat with h | h | h
    · exact Or.inl (by simp [str_lt_list, h])
    · have hcd : c = d := char_eq_of_toNat_eq h
      subst hcd
      rcases str_lt_trichotomy cs ds with ht | ht | ht
      · exact Or.inl (by simp [str_lt_list, ht])
      · exact Or.inr (Or.inl (by rw [ht]))
      · exact Or.inr (Or.inr (by simp [str_lt_list, ht]))
    · exact Or.inr (Or.inr (by simp [str_lt_list, h]))

theorem str_lt_asymm : ∀ l₁ l₂ : List Char,
    str_lt_list l₁ l₂ = true → str_lt_list l₂ l₁ = false
  | [], [] => by simp [str_lt_list]
  | [], _ :: _ => by simp [str_lt_list]
  | _ :: _, [] => by simp [str_lt_list]
  | c :: cs, d :: ds => by
    intro h
    rcases Nat.lt_trichotomy c.toNat d.toNat with hcd | hcd | hcd
    · rw [str_lt_list, if_neg (Nat.lt_asymm hcd), if_pos hcd]
    · have : c = d := char_eq_of_toNat_eq hcd
      subst this
      rw [str_lt_list, if_neg (Nat.lt_irrefl _), if_neg (Nat.lt_irrefl _)] at h ⊢
      exact str_lt_asymm cs ds h
    · rw [str_lt_list, if_neg (Nat.lt_asymm hcd), if_pos hcd] at h
      exact absurd h (by simp)

theorem str_lt_trans : ∀ l₁ l₂ l₃ : List Char,
    str_lt_list l₁ l₂ = true → str_lt_list l₂ l₃ = true → str_lt_list l₁ l₃ = true
  | _, [], [] => by simp [str_lt_list]
  | _, _ :: _, [] => by simp [str_lt_list]
  | [], _, _ :: _ => by simp [str_lt_list]
  | c :: cs, [], d :: ds => by simp [str_lt_list]
  | c :: cs, e :: es, d :: ds => by
    intro h1 h2
    rw [str_lt_list] at h1 h2 ⊢
    rcases Nat.lt_trichotomy c.toNat e.toNat with hce | hce | hce
    · rcases Nat.lt_trichotomy e.toNat d.toNat with hed | hed | hed
      · rw [if_pos (Nat.lt_trans hce hed)]
      · rw [if_pos (hed ▸ hce)]
      · rw [if_pos hed, if_neg (Nat.lt_asymm hed)] at h2
        simp at h2
    · have : c = e := char_eq_of_toNat_eq hce
      subst this
      rw [if_neg (Nat.lt_irrefl _), if_neg (Nat.lt_irrefl _)] at h1
      rcases Nat.lt_trichotomy c.toNat d.toNat with hcd | hcd | hcd
      · rw [if_pos hcd]
      · have : c = d := char_eq_of_toNat_eq hcd
        subst this
        rw [if_neg (Nat.lt_irrefl _), if_neg (Nat.lt_irrefl _)] at h2 ⊢
        exact str_lt_trans cs es ds h1 h2
      · rw [if_pos hcd, if_neg (Nat.lt_asymm hcd)] at h2
        simp at h2
    · rw [if_pos hce, if_neg (Nat.lt_asymm hce)] at h1
      simp at h1

theorem str_lt_irrefl : ∀ l : List Char, str_lt_list l l = false
  | [] => rfl
  | c :: cs => by
    rw [str_lt_list, if_neg (Nat.lt_irrefl _), if_neg (Nat.lt_irrefl _)]
    exact str_lt_irrefl cs

instance : IsTotal String key_le where
  total a b := by
    unfold key_le
    rcases str_lt_trichotomy a.data b.data with h | h | h
    · exact Or.inl (str_lt_asymm _ _ h)
    · exact Or.inl (by rw [h]; exact str_lt_irrefl _)
    · exact Or.inr (str_lt_asymm _ _ h)

instance : IsTrans String key_le where
  trans a b c hab hbc := by
    unfold key_le at *
    cases hx : str_lt_list c.data a.data
    · rfl
    · exfalso
      rcases str_lt_trichotomy a.data b.data with h | h | h
      · have hcb := str_lt_trans _ _ _ hx h
        rw [hcb] at hbc
        exact Bool.noConfusion hbc
      · rw [h] at hx
        rw [hx] at hbc
        exact Bool.noConfusion hbc
      · rw [h] at hab
        exact Bool.noConfusion hab

instance : IsAntisymm String key_le where
  antisymm a b hab hba := by
    unfold key_le at *
    rcases str_lt_trichotomy a.data b.data with h | h | h
    · rw [h] at hba
      exact Bool.noConfusion hba
    · exact String.toList_inj.mp h
    · rw [h] at hab
      exact Bool.noConfusion hab

-- db_cache.create_unique_request_str.  A Python dict is modelled as an
-- association list with pairwise distinct keys; dict[k] is List.lookup.

/-- The "name-value" fields of the canonical request string: iterate the
sorted parameter names, skip the private ones, render each remaining
name as "name-value". -/
def request_fields (params_dict : List (String × String))
    (private_keys : List String) : List String :=
  ((List.insertionSort key_le (params_dict.map Prod.fst)).filter
    (fun p => !private_keys.contains p)).map
    (fun p => p ++ "-" ++ ((params_dict.lookup p).getD ""))

/-- db_cache.create_unique_request_str: sort the parameter names, drop
the private ones, join the "name-value" fields with "&", and append the
result to the base URL. -/
def create_unique_request_str (base_url : String)
    (params_dict : List (String × String))
    (private_keys : List String := ["wskey"]) : String :=
  base_url ++ String.intercalate "&" (request_fields params_dict private_keys)

theorem filter_insertionSort (q : String → Bool) (ks : List String) :
    (List.insertionSort key_le ks).filter q
      = List.insertionSort key_le (ks.filter q) := by
  exact List.eq_of_perm_of_sorted
    (((List.perm_insertionSort key_le ks).filter q).trans
      (List.perm_insertionSort key_le (ks.filter q)).symm)
    ((List.sorted_insertionSort key_le ks).filter q)
    (List.sorted_insertionSort key_le (ks.filter q))

theorem filter_map_fst (q : String → Bool) :
    ∀ l : List (String × String),
      (l.map Prod.fst).filter q = (l.filter (fun kv => q kv.1)).map Prod.fst
  | [] => rfl
  | kv :: tl => by
    rw [List.map_cons, List.filter_cons, List.filter_cons]
    by_cases h : q kv.1
    · rw [if_pos (by simpa using h), if_pos (by simpa using h), List.map_cons,
        filter_map_fst q tl]
    · rw [if_neg (by simpa using h), if_neg (by simpa using h), filter_map_fst q tl]

theorem lookup_filter (q : String → Bool) (k : String) (hq : q k = true) :
    ∀ l : List (String × String),
      List.lookup k (l.filter (fun kv => q kv.1)) = List.lookup k l
  | [] => rfl
  | (a, b) :: tl => by
    rw [List.filter_cons]
    by_cases hk : k == a
    · have ha : q a = true := by
        have : k = a := by simpa using hk
        rw [← this]; exact hq
      rw [if_pos (by simpa using ha), List.lookup_cons, List.lookup_cons, hk]
    · by_cases hqa : q a
      · rw [if_pos (by simpa using hqa), List.lookup_cons, List.lookup_cons,
          Bool.eq_false_iff.mpr hk]
        · exact lookup_filter q k hq tl
      · rw [if_neg (by simpa using hqa), List.lookup_cons,
          Bool.eq_false_iff.mpr hk]
        exact lookup_filter q k hq tl

theorem lookup_perm {l₁ l₂ : List (String × String)} (h : List.Perm l₁ l₂)
    (nd : (l₁.map Prod.fst).Nodup) (k : String) :
    List.lookup k l₁ = List.lookup k l₂ := by
  induction h with
  | nil => rfl
  | cons x _ ih =>
    simp only [List.map_cons] at nd
    rw [List.lookup_cons, List.lookup_cons]
    cases hk : k == x.1
    · exact ih (List.nodup_cons.mp nd).2
    · rfl
  | swap x y l =>
    simp only [List.map_cons] at nd
    rw [List.lookup_cons, List.lookup_cons, List.lookup_cons, List.lookup_cons]
    cases hky : k == y.1
    · cases hkx : k == x.1 <;> rfl
    · cases hkx : k == x.1
      · rfl
      · exfalso
        have h1 : k = y.1 := by simpa using hky
        have h2 : k = x.1 := by simpa using hkx
        have hyx : y.1 = x.1 := h1.symm.trans h2
        exact (List.nodup_cons.mp nd).1
          (by rw [hyx]; exact List.mem_cons_self _ _)
  | trans h12 _ ih12 ih23 =>
    exact (ih12 nd).trans (ih23 ((h12.map Prod.fst).nodup nd))

/-- The canonical request string depends only on the non-private entries
of the parameter map, irrespective of insertion order. -/
theorem create_unique_request_str_congr (base : String)
    (p₁ p₂ : List (String × String)) (priv : List String)
    (nd₁ : (p₁.map Prod.fst).Nodup) (nd₂ : (p₂.map Prod.fst).Nodup)
    (h : List.Perm (p₁.filter (fun kv => !priv.contains kv.1))
        (p₂.filter (fun kv => !priv.contains kv.1))) :
    create_unique_request_str base p₁ priv = create_unique_request_str base p₂ priv := by
  unfold create_unique_request_str request_fields
  have hkeys : ((List.insertionSort key_le (p₁.map Prod.fst)).filter
        (fun p => !priv.contains p))
      = ((List.insertionSort key_le (p₂.map Prod.fst)).filter
        (fun p => !priv.contains p)) := by
    rw [filter_insertionSort, filter_insertionSort, filter_map_fst, filter_map_fst]
    exact List.eq_of_perm_of_sorted
      (((List.perm_insertionSort key_le _).trans (h.map Prod.fst)).trans
        (List.perm_insertionSort key_le _).symm)
      (List.sorted_insertionSort key_le _)
      (List.sorted_insertionSort key_le _)
  rw [hkeys]
  congr 1
  congr 1
  refine List.map_congr_left ?_
  intro k hk
  have hkq : (!priv.contains k) = true := by
    rcases List.mem_filter.mp ((List.mem_insertionSort key_le).mp
      (by rw [← filter_insertionSort]; exact hk)) with ⟨_, hq⟩
    exact hq
  have hmem := (List.mem_insertionSort key_le).mp
    (by rw [← filter_insertionSort]; exact hk)
  congr 1
  rw [← lookup_filter (fun t => !priv.contains t) k hkq p₁,
    ← lookup_filter (fun t => !priv.contains t) k hkq p₂]
  exact congrArg (Option.getD · "") (lookup_perm h
    (((List.filter_sublist p₁).map Prod.fst).nodup nd₁) k)

/-- C6: create_unique_request_str sorts parameter names, drops the
private ones, joins the remaining "name-value" fields with "&" and
appends to the base URL; its output therefore depends neither on a map's
insertion order nor on the values of private-key parameters, and in
particular the maps \x7b"b":"2","a":"1","wskey":"secret"\x7d and
\x7b"a":"1","wskey":"other-secret","b":"2"\x7d give equal keys. -/
theorem create_unique_request_str_order_indep :
    (∀ (base : String) (p₁ p₂ : List (String × String)) (priv : List String),
      (p₁.map Prod.fst).Nodup → (p₂.map Prod.fst).Nodup →
      List.Perm (p₁.filter (fun kv => !(priv.contains kv.1)))
        (p₂.filter (fun kv => !(priv.contains kv.1))) →
      create_unique_request_str base p₁ priv
        = create_unique_request_str base p₂ priv) ∧
    (∀ u : String,
      create_unique_request_str u [("b", "2"), ("a", "1"), ("wskey", "secret")]
        = create_unique_request_str u
          [("a", "1"), ("wskey", "other-secret"), ("b", "2")]) := by
  refine ⟨fun base p₁ p₂ priv nd₁ nd₂ h =>
    create_unique_request_str_congr base p₁ p₂ priv nd₁ nd₂ h, fun u => ?_⟩
  exact create_unique_request_str_congr u _ _ _ (by decide) (by decide) (by decide)

/-- Closed instance of the canonical-key invariance at the
specification's own example maps. -/
theorem create_unique_request_str_order_indep_witness :
    create_unique_request_str "http://base?"
        [("b", "2"), ("a", "1"), ("wskey", "secret")]
      = create_unique_request_str "http://base?"
        [("a", "1"), ("wskey", "other-secret"), ("b", "2")] :=
  create_unique_request_str_order_indep.1 "http://base?" _ _ ["wskey"]
    (by decide) (by decide) (by decide)

/-- C9: the cache key is not injective on public parameters: the
two-entry map a to 1, b to 2 and the one-entry map a to "1&b-2" yield
the same canonical request string base ++ "a-1&b-2", because names and
values are joined with unescaped "-" and "&". -/
theorem create_unique_request_str_not_injective :
    ∀ base : String,
      create_unique_request_str base [("a", "1"), ("b", "2")]
        = create_unique_request_str base [("a", "1&b-2")] ∧
      create_unique_request_str base [("a", "1"), ("b", "2")] = base ++ "a-1&b-2" ∧
      [(("a", "1") : String × String), ("b", "2")] ≠ [("a", "1&b-2")] := by
  intro base
  refine ⟨?_, ?_, by decide⟩
  · exact congrArg (fun t => base ++ t) (by decide :
      String.intercalate "&" (request_fields [("a", "1"), ("b", "2")] ["wskey"])
        = String.intercalate "&" (request_fields [("a", "1&b-2")] ["wskey"]))
  · exact congrArg (fun t => base ++ t) (by decide :
      String.intercalate "&" (request_fields [("a", "1"), ("b", "2")] ["wskey"])
        = "a-1&b-2")

-- db_cache.make_request_using_cache, with the persisted store passed
-- explicitly and the network response modelled by the status code and
-- text the single possible requests.get call would return.

/-- One row of the request table: the canonical key (request_url, the
unique column) and the stored response body. -/
structure CacheRow where
  request_url : String
  response : String
deriving DecidableEq

/-- The "SELECT * FROM request WHERE request_url = key" query followed
by iloc[0]: the first matching row's response, if any. -/
def query_cache (store : List CacheRow) (key : String) : Option String :=
  (store.find? (fun row => row.request_url == key)).map CacheRow.response

/-- The outcome of one make_request_using_cache call: the returned body,
the store after the call, and whether requests.get was reached. -/
structure FetchResult where
  body : String
  store : List CacheRow
  network_called : Bool
deriving DecidableEq

/-- db_cache.make_request_using_cache: serve the cached row if the
canonical key is present; otherwise issue the network request and
persist the body only on HTTP 200 (403 and every other non-200 status
return the empty string without persisting). -/
def make_request_using_cache (net_status : ℕ) (net_text : String)
    (store : List CacheRow) (url : String)
    (params : List (String × String)) : FetchResult :=
  let unique_req_url := create_unique_request_str url params
  match query_cache store unique_req_url with
  | some resp => ⟨resp, store, false⟩
  | none =>
    if net_status == 403 then ⟨"", store, true⟩
    else if net_status != 200 then ⟨"", store, true⟩
    else ⟨net_text, store ++ [⟨unique_req_url, net_text⟩], true⟩

theorem make_request_cache_hit {store : List CacheRow} {url : String}
    {params : List (String × String)} {r : String} (st : ℕ) (tx : String)
    (hq : query_cache store (create_unique_request_str url params) = some r) :
    make_request_using_cache st tx store url params = ⟨r, store, false⟩ := by
  simp only [make_request_using_cache]
  rw [hq]

theorem make_request_cache_miss_200 {store : List CacheRow} {url : String}
    {params : List (String × String)} (tx : String)
    (hq : query_cache store (create_unique_request_str url params) = none) :
    make_request_using_cache 200 tx store url params
      = ⟨tx, store ++ [⟨create_unique_request_str url params, tx⟩], true⟩ := by
  simp only [make_request_using_cache]
  rw [hq]
  rfl

theorem make_request_cache_miss_non200 {store : List CacheRow} {url : String}
    {params : List (String × String)} {st : ℕ} (tx : String)
    (hq : query_cache store (create_unique_request_str url params) = none)
    (hst : st ≠ 200) :
    make_request_using_cache st tx store url params = ⟨"", store, true⟩ := by
  simp only [make_request_using_cache]
  rw [hq]
  by_cases h403 : (st == 403) = true
  · rw [if_pos h403]
  · rw [if_neg h403, if_pos (by simpa using hst)]

theorem query_cache_append_self (store : List CacheRow) (key tx : String)
    (h : query_cache store key = none) :
    query_cache (store ++ [⟨key, tx⟩]) key = some tx := by
  unfold query_cache at *
  rw [List.find?_append]
  have hf : store.find? (fun row => row.request_url == key) = none := by
    cases hf : store.find? (fun row => row.request_url == key)
    · rfl
    · rw [hf] at h
      simp at h
  rw [hf]
  simp [List.find?]

theorem make_request_network_called {store : List CacheRow} {url : String}
    {params : List (String × String)} (st : ℕ) (tx : String)
    (hq : query_cache store (create_unique_request_str url params) = none) :
    (make_request_using_cache st tx store url params).network_called = true := by
  by_cases h200 : st = 200
  · subst h200
    rw [make_request_cache_miss_200 tx hq]
  · rw [make_request_cache_miss_non200 tx hq h200]

/-- C4: when a first call returns a body served from the cache or
persisted on HTTP 200, a second sequential call with the same url and a
parameter map differing at most in private-key ("wskey") entries
performs no network request, returns the same body, and writes no
additional row to the store. -/
theorem make_request_using_cache_idempotent
    (st₁ st₂ : ℕ) (tx₁ tx₂ : String) (store : List CacheRow) (url : String)
    (p₁ p₂ : List (String × String))
    (nd₁ : (p₁.map Prod.fst).Nodup) (nd₂ : (p₂.map Prod.fst).Nodup)
    (hp : List.Perm (p₁.filter (fun kv => !(["wskey"].contains kv.1)))
      (p₂.filter (fun kv => !(["wskey"].contains kv.1))))
    (h1 : query_cache store (create_unique_request_str url p₁) ≠ none ∨ st₁ = 200) :
    (make_request_using_cache st₂ tx₂
        (make_request_using_cache st₁ tx₁ store url p₁).store url p₂).network_called
      = false ∧
    (make_request_using_cache st₂ tx₂
        (make_request_using_cache st₁ tx₁ store url p₁).store url p₂).body
      = (make_request_using_cache st₁ tx₁ store url p₁).body ∧
    (make_request_using_cache st₂ tx₂
        (make_request_using_cache st₁ tx₁ store url p₁).store url p₂).store
      = (make_request_using_cache st₁ tx₁ store url p₁).store := by
  have hkey : create_unique_request_str url p₂ = create_unique_request_str url p₁ :=
    (create_unique_request_str_congr url p₁ p₂ ["wskey"] nd₁ nd₂ hp).symm
  cases hq : query_cache store (create_unique_request_str url p₁) with
  | some r =>
    rw [make_request_cache_hit st₁ tx₁ hq]
    dsimp only
    rw [make_request_cache_hit st₂ tx₂ (by rw [hkey]; exact hq)]
    exact ⟨rfl, rfl, rfl⟩
  | none =>
    have hst : st₁ = 200 := h1.resolve_left (fun hne => hne hq)
    subst hst
    rw [make_request_cache_miss_200 tx₁ hq]
    dsimp only
    rw [make_request_cache_hit st₂ tx₂
      (by rw [hkey]; exact query_cache_append_self store _ tx₁ hq)]
    exact ⟨rfl, rfl, rfl⟩

/-- Closed instance of cache idempotence: an empty store, a 200 first
response, and second parameters differing only in the wskey value. -/
theorem make_request_using_cache_idempotent_witness :
    (make_request_using_cache 403 ""
        (make_request_using_cache 200 "body" [] "u" [("a", "1"), ("wskey", "k1")]).store
        "u" [("a", "1"), ("wskey", "k2")]).network_called = false ∧
    (make_request_using_cache 403 ""
        (make_request_using_cache 200 "body" [] "u" [("a", "1"), ("wskey", "k1")]).store
        "u" [("a", "1"), ("wskey", "k2")]).body
      = (make_request_using_cache 200 "body" [] "u" [("a", "1"), ("wskey", "k1")]).body ∧
    (make_request_using_cache 403 ""
        (make_request_using_cache 200 "body" [] "u" [("a", "1"), ("wskey", "k1")]).store
        "u" [("a", "1"), ("wskey", "k2")]).store
      = (make_request_using_cache 200 "body" [] "u" [("a", "1"), ("wskey", "k1")]).store :=
  make_request_using_cache_idempotent 200 403 "body" "" [] "u"
    [("a", "1"), ("wskey", "k1")] [("a", "1"), ("wskey", "k2")]
    (by decide) (by decide) (by decide) (Or.inr rfl)

/-- C5: on a cache miss, a 403 or any other non-200 status returns the
empty string and leaves the persisted store unchanged, so a subsequent
identical call reaches the network again instead of serving a cached
empty result. -/
theorem make_request_using_cache_non200_no_persist
    (st : ℕ) (tx : String) (store : List CacheRow) (url : String)
    (params : List (String × String))
    (hmiss : query_cache store (create_unique_request_str url params) = none)
    (hst : st ≠ 200) :
    (make_request_using_cache st tx store url params).body = "" ∧
    (make_request_using_cache st tx store url params).store = store ∧
    (make_request_using_cache st tx store url params).network_called = true ∧
    ∀ (st₂ : ℕ) (tx₂ : String),
      (make_request_using_cache st₂ tx₂
        (make_request_using_cache st tx store url params).store url
        params).network_called = true := by
  rw [make_request_cache_miss_non200 tx hmiss hst]
  refine ⟨rfl, rfl, rfl, ?_⟩
  intro st₂ tx₂
  dsimp only
  exact make_request_network_called st₂ tx₂ hmiss

/-- Closed instance of the 403 behaviour: empty store, quota-hit first
call, retried second call. -/
theorem make_request_using_cache_non200_no_persist_witness :
    (make_request_using_cache 403 "denied" [] "u" [("a", "1")]).body = "" ∧
    (make_request_using_cache 403 "denied" [] "u" [("a", "1")]).store = [] ∧
    (make_request_using_cache 403 "denied" [] "u" [("a", "1")]).network_called = true ∧
    ∀ (st₂ : ℕ) (tx₂ : String),
      (make_request_using_cache st₂ tx₂
        (make_request_using_cache 403 "denied" [] "u" [("a", "1")]).store "u"
        [("a", "1")]).network_called = true :=
  make_request_using_cache_non200_no_persist 403 "denied" [] "u" [("a", "1")]
    rfl (by decide)

-- Word-boundary regular-expression fragments used by the format
-- patterns and the publisher patterns.  Every literal these patterns
-- use starts and ends with a word character, so a \b boundary holds
-- exactly when the neighbouring character is absent or a non-word
-- character.

/-- Python regex \w on the ASCII fragment: letters, digits, underscore. -/
def isWordChar (c : Char) : Bool :=
  (65 ≤ c.toNat && c.toNat ≤ 90) || (97 ≤ c.toNat && c.toNat ≤ 122) ||
    (48 ≤ c.toNat && c.toNat ≤ 57) || c == '_'

/-- Does lit occur literally at the head of the second list? -/
def litMatches : List Char → List Char → Bool
  | [], _ => true
  | _ :: _, [] => false
  | c :: cs, d :: ds => c == d && litMatches cs ds

/-- Boundary before an occurrence: start of string or a non-word
character. -/
def beforeOk : Option Char → Bool
  | none => true
  | some d => !isWordChar d

/-- Boundary after an occurrence: end of string or a non-word
character. -/
def afterOk : List Char → Bool
  | [] => true
  | d :: _ => !isWordChar d

/-- pattern.search for a \b lit \b pattern: is there a
boundary-delimited occurrence of lit?  prev is the character just
before the scan position. -/
def containsWordAux (lit : List Char) : Option Char → List Char → Bool
  | _, [] => false
  | prev, c :: cs =>
    (beforeOk prev && litMatches lit (c :: cs) && afterOk ((c :: cs).drop lit.length))
      || containsWordAux lit (some c) cs

/-- Search a whole string for a boundary-delimited occurrence of lit. -/
def containsWord (lit : List Char) (s : List Char) : Bool :=
  containsWordAux lit none s

/-- pattern.search for a plain literal with no boundary anchors. -/
def containsSub (lit : List Char) : List Char → Bool
  | [] => litMatches lit []
  | c :: cs => litMatches lit (c :: cs) || containsSub lit cs

/-- A regex with alternation-like structure such as hard[ -]?cover or
hbk?: a boundary-delimited occurrence of any of the expanded literal
alternatives. -/
def word_alts (alts : List (List Char)) (s : List Char) : Bool :=
  alts.any (fun lit => containsWord lit s)

/-- compare.FORMAT_PATTERNS in declaration order, each regex expanded
into its finite alternative set:
hard[ -]?cover, hbk?, hcr?? ; paper[ -]?back, pbk? ;
e[- ]?book, electronic (unanchored), ebk?. -/
def FORMAT_PATTERNS : List (String × List (List Char → Bool)) :=
  [("Hardcover",
    [word_alts ["hardcover".data, "hard cover".data, "hard-cover".data],
     word_alts ["hb".data, "hbk".data],
     word_alts ["hc".data, "hcr".data]]),
   ("Paperback",
    [word_alts ["paperback".data, "paper back".data, "paper-back".data],
     word_alts ["pb".data, "pbk".data]]),
   ("Ebook",
    [word_alts ["ebook".data, "e-book".data, "e book".data],
     containsSub "electronic".data,
     word_alts ["eb".data, "ebk".data]])]

/-- The matches list built by the nested loops of classify_by_format:
for each family in order, one entry per pattern with a match. -/
def collect_matches (normal_field : List Char) :
    List (String × List (List Char → Bool)) → List String
  | [] => []
  | (fmt, pats) :: rest =>
    (pats.filter (fun pat => pat normal_field)).map (fun _ => fmt)
      ++ collect_matches normal_field rest

/-- The unique_matches loop: first-occurrence deduplication. -/
def uniquify (l : List String) : List String :=
  l.foldl (fun acc m => if m ∈ acc then acc else acc ++ [m]) []

/-- compare.classify_by_format.  pd.NA is modelled as none.  In the
multiple-match branch the Python source logs the anomaly and falls
through without assigning format, so the value returned is the loop
variable left over from "for format in FORMAT_PATTERNS.keys()" — the
last declared family name — modelled here by getLast?. -/
def classify_by_format (field_to_analyze : String) : Option String :=
  let match_list := collect_matches (normalize field_to_analyze).data FORMAT_PATTERNS
  let unique_matches := uniquify match_list
  if unique_matches.length = 0 then none
  else if unique_matches.length = 1 then match_list.head?
  else (FORMAT_PATTERNS.map Prod.fst).getLast?

/-- C1: on "hardcover paperback" more than one family matches and the
first matching family in iteration order is "Hardcover", yet
classify_by_format returns "Ebook" — the leftover loop variable — while
raising no error; the fixed first-match tie-break the specification
describes is not what the code does. -/
theorem classify_by_format_multi_match_returns_last_key :
    uniquify (collect_matches (normalize "hardcover paperback").data FORMAT_PATTERNS)
      = ["Hardcover", "Paperback"] ∧
    classify_by_format "hardcover paperback" = some "Ebook" ∧
    (some "Ebook" : Option String) ≠ some "Hardcover" := by
  exact ⟨by decide, by decide, by decide⟩

-- create_compare_func / compare_func.  The fuzzywuzzy scoring functions
-- fuzz.ratio and fuzz.partial_ratio are third-party collaborators and
-- are passed as parameters (scoreFull and scoreSub); the threshold is a
-- Python float, modelled as a rational.

/-- The dictionary built for each reference string by
create_compare_func: the original string, its token list (of the
original, non-normalized string) and its normalized, transformed
form. -/
structure LeftDict where
  orig_left : String
  left_tokens : List String
  norm_left : String

/-- The per-reference preprocessing loop of create_compare_func. -/
def build_left_dict (transforms : List (String → String)) (left : String) : LeftDict :=
  { orig_left := left, left_tokens := tokenize left,
    norm_left := transforms.foldl (fun s t => t s) (normalize left) }

/-- The reference loop of compare_func, instrumented: besides the
boolean outcome it returns the references (by original string, in
order) whose partial score was computed.  last_left is the value the
Python closure reads for len(left): the loop variable left over from
the construction loop, i.e. the last reference string. -/
def compare_go (scoreFull scoreSub : String → String → ℚ) (thresh : ℚ)
    (last_left norm_right : String) (right_token_count : ℕ) :
    List LeftDict → List String → Bool × List String
  | [], acc => (false, acc.reverse)
  | d :: ds, acc =>
    if scoreFull d.norm_left norm_right ≥ thresh then (true, acc.reverse)
    else if ((d.left_tokens.length : ℤ) - (right_token_count : ℤ)).natAbs < 3
        ∧ last_left.length > 4 then
      if scoreSub d.norm_left norm_right ≥ thresh then
        (true, (d.orig_left :: acc).reverse)
      else compare_go scoreFull scoreSub thresh last_left norm_right
        right_token_count ds (d.orig_left :: acc)
    else compare_go scoreFull scoreSub thresh last_left norm_right
      right_token_count ds acc

/-- One call of the closure returned by create_compare_func, applied to
a candidate string, instrumented with the partial-score trace. -/
def compare_run (scoreFull scoreSub : String → String → ℚ)
    (lefts : List String) (thresh : ℚ) (transforms : List (String → String))
    (right : String) : Bool × List String :=
  let left_dicts := lefts.map (build_left_dict transforms)
  let norm_right := transforms.foldl (fun s t => t s) (normalize right)
  compare_go scoreFull scoreSub thresh (lefts.getLastD "") norm_right
    (tokenize right).length left_dicts []

/-- The boolean outcome of compare_func. -/
def compare_func (scoreFull scoreSub : String → String → ℚ)
    (lefts : List String) (thresh : ℚ) (transforms : List (String → String))
    (right : String) : Bool :=
  (compare_run scoreFull scoreSub lefts thresh transforms right).1

/-- C2: with references ["abc", "abcdef"], every full score 0 and
threshold 50, the partial score is computed for reference "abc" as well,
even though its own original length 3 is not greater than 4: the length
guard reads the stale loop variable left, which holds the last
reference "abcdef" (length 6), not the reference under comparison. -/
theorem compare_partial_guard_uses_last_reference :
    (compare_run (fun _ _ => 0) (fun _ _ => 0) ["abc", "abcdef"] 50 [] "xyz").2
      = ["abc", "abcdef"] ∧
    ¬("abc".length > 4) ∧
    (compare_run (fun _ _ => 0) (fun _ _ => 0) ["abc", "abcdef"] 50 [] "xyz").1
      = false := by
  exact ⟨by decide, by decide, by decide⟩

-- compare.normalize_univ: the three case-sensitive publisher
-- substitutions UP_PATTERN, UOF_PATTERN, UNIV_PATTERN.

/-- re.sub for a \b lit \b pattern (lit nonempty, starting and ending
with a word character): scan left to right; at a boundary-delimited
occurrence emit the replacement and skip the occurrence (skip counts the
characters of a matched occurrence still to consume); otherwise copy one
character.  prev is the character just before the scan position. -/
def sub_word_go (lit repl : List Char) :
    Option Char → ℕ → List Char → List Char
  | _, _, [] => []
  | _, Nat.succ skip, c :: cs => sub_word_go lit repl (some c) skip cs
  | prev, 0, c :: cs =>
    if beforeOk prev && litMatches lit (c :: cs)
        && afterOk ((c :: cs).drop lit.length) then
      repl ++ sub_word_go lit repl (some c) (lit.length - 1) cs
    else c :: sub_word_go lit repl (some c) 0 cs

/-- pattern.sub(repl, s) for a \b lit \b pattern. -/
def sub_word (lit repl s : List Char) : List Char :=
  sub_word_go lit repl none 0 s

/-- compare.normalize_univ: substitute "up" by "university press", then
"u of" by "university of", then "univ" by "university", each as a
whole-word, case-sensitive pattern (none of the three patterns carries
re.IGNORECASE). -/
def normalize_univ (input : String) : String :=
  String.mk (sub_word "univ".data "university".data
    (sub_word "u of".data "university of".data
      (sub_word "up".data "university press".data input.data)))

theorem sub_word_go_id (lit repl : List Char) (c0 : Char)
    (hhead : lit.head? = some c0) :
    ∀ (prev : Option Char) (s : List Char), c0 ∉ s →
      sub_word_go lit repl prev 0 s = s := by
  cases lit with
  | nil => simp at hhead
  | cons c1 lit' =>
    simp only [List.head?_cons, Option.some.injEq] at hhead
    subst hhead
    intro prev s
    induction s generalizing prev with
    | nil => intro _; rfl
    | cons c cs ih =>
      intro h
      have hc : (c1 == c) = false := by
        simp only [beq_eq_false_iff_ne]
        exact fun hu => h (hu ▸ List.mem_cons_self c cs)
      show (if beforeOk prev && (c1 == c && litMatches lit' cs)
          && afterOk ((c :: cs).drop (c1 :: lit').length) then
          repl ++ sub_word_go (c1 :: lit') repl (some c) ((c1 :: lit').length - 1) cs
        else c :: sub_word_go (c1 :: lit') repl (some c) 0 cs) = c :: cs
      rw [if_neg (by simp [hc])]
      exact congrArg (c :: ·) (ih (some c) (fun hm => h (List.mem_cons_of_mem c hm)))

/-- C3 counterexample: normalize_univ leaves the whole word "UP"
unchanged, so its substitutions are not case-insensitive. -/
theorem normalize_univ_not_case_insensitive :
    normalize_univ "UP" = "UP" ∧ "UP" ≠ "university press" :=
  ⟨by decide, by decide⟩

/-- C3 amended: normalize_univ performs whole-word but case-sensitive
substitutions — only the lowercase spellings "up", "u of" and "univ"
are expanded (in that order), an input without a lowercase u is returned
unchanged, and uppercase variants such as "UP" and "Univ" are kept. -/
theorem normalize_univ_case_sensitive :
    (∀ s : String, 'u' ∉ s.data → normalize_univ s = s) ∧
    normalize_univ "up" = "university press" ∧
    normalize_univ "u of mi" = "university of mi" ∧
    normalize_univ "univ" = "university" ∧
    normalize_univ "UP" = "UP" ∧
    normalize_univ "Univ" = "Univ" ∧
    normalize_univ "sup cup" = "sup cup" := by
  refine ⟨fun s h => ?_, by decide, by decide, by decide, by decide, by decide,
    by decide⟩
  unfold normalize_univ sub_word
  rw [sub_word_go_id "up".data "university press".data 'u' rfl none s.data h,
    sub_word_go_id "u of".data "university of".data 'u' rfl none s.data h,
    sub_word_go_id "univ".data "university".data 'u' rfl none s.data h]

/-- Closed instance of the amended case-sensitivity statement: a
publisher name without a lowercase u is left unchanged. -/
theorem normalize_univ_case_sensitive_witness :
    normalize_univ "MIT Press" = "MIT Press" :=
  normalize_univ_case_sensitive.1 "MIT Press" (by decide)
